import Mathlib

/-!
Verification of the jrpc2 client/handler core against its specification.

The Go sources are embedded shallowly: JSON documents become an inductive
`Json` value type, `json.Marshal` output becomes the `render` function on
character lists, the client's mutable fields become an explicit
`ClientState` record threaded through the operation functions, and the
fallible external calls (`json.Marshal` of a batch, `Channel.Send`) become
`Option` parameters describing the outcome of that call.  Machine integers
(`int64`) are embedded as `Int` with an explicit two's-complement wrap.
-/

set_option maxHeartbeats 1000000

namespace Jrpc2

/-- The decimal digit character for `d` (`d ≤ 9`); used to embed Go's
integer formatting. Inputs above 9 never occur. -/
def digitChar (d : Nat) : Char :=
  match d with
  | 0 => '0' | 1 => '1' | 2 => '2' | 3 => '3' | 4 => '4'
  | 5 => '5' | 6 => '6' | 7 => '7' | 8 => '8' | 9 => '9'
  | _ => '0'

/-- Decimal digits of `n`, most significant first (embeds `strconv` /
`encoding/json` integer formatting). -/
def natDigits (n : Nat) : List Char :=
  if _h : n < 10 then [digitChar n]
  else natDigits (n / 10) ++ [digitChar (n % 10)]
  termination_by n
  decreasing_by exact Nat.div_lt_self (by omega) (by omega)

/-- A JSON document.  Go's `json.RawMessage` values are embedded as the
JSON value their bytes denote. -/
inductive Json where
  | num (iv : Int)
  | str (sv : String)
  | arr (items : List Json)
  | obj (members : List (String × Json))
  | bool (bv : Bool)
  | null

/-- String-content escaping used by the JSON encoder.  Go's encoder also
escapes `<`, `>`, `&` and other control bytes; none of the verified
properties inspect string contents, only the leading byte of a document,
which escaping never changes. -/
def escapeChar (c : Char) : List Char :=
  if c = '"' then ['\\', '"']
  else if c = '\\' then ['\\', '\\']
  else if c = '\n' then ['\\', 'n']
  else if c = '\r' then ['\\', 'r']
  else if c = '\t' then ['\\', 't']
  else [c]

mutual

/-- The bytes produced by `json.Marshal` for a document, as characters. -/
def render : Json → List Char
  | .num n => if n < 0 then '-' :: natDigits n.natAbs else natDigits n.natAbs
  | .str s => '"' :: ((s.toList.map escapeChar).flatten ++ ['"'])
  | .arr elts => '[' :: (renderElems elts ++ [']'])
  | .obj fields => '\x7b' :: (renderFields fields ++ ['\x7d'])
  | .bool true => "true".toList
  | .bool false => "false".toList
  | .null => "null".toList

/-- Comma-separated rendering of array elements. -/
def renderElems : List Json → List Char
  | [] => []
  | [x] => render x
  | x :: y :: rest => render x ++ ',' :: renderElems (y :: rest)

/-- Comma-separated rendering of object members. -/
def renderFields : List (String × Json) → List Char
  | [] => []
  | [(k, v)] => '"' :: (k.toList.map escapeChar).flatten ++ '"' :: ':' :: render v
  | (k, v) :: kv :: rest =>
      ('"' :: (k.toList.map escapeChar).flatten ++ '"' :: ':' :: render v)
        ++ ',' :: renderFields (kv :: rest)

end

/-- Whether a document is a JSON array. -/
def Json.isArr : Json → Bool
  | .arr _ => true
  | _ => false

/-- Whether a document is a JSON object. -/
def Json.isObj : Json → Bool
  | .obj _ => true
  | _ => false

/-- Whether a document is the JSON literal `null`. -/
def Json.isNull : Json → Bool
  | .null => true
  | _ => false

/-- Error codes of the `code` package.  The package itself is not among
the sources; the claims reference codes only by name, so the taxonomy
named by the specification is embedded as an inductive. -/
inductive Code where
  | parseError
  | invalidRequest
  | methodNotFound
  | invalidParams
  | internalError
  | cancelled
  | deadlineExceeded
  | systemError
  | other (n : Int)
deriving DecidableEq, Repr

/-- The `jrpc2.Error` value: code, message and optional data
(`error.go`). -/
structure Error where
  code : Code
  message : String
  data : Option Json

/-- `jrpc2.Errorf`: an `Error` with the given code and message and no
data (`error.go`). -/
def Errorf (c : Code) (msg : String) : Error :=
  { code := c, message := msg, data := none }

/-- The protocol version marker `"2.0"`. -/
def Version : String := "2.0"

/-- `Client.marshalParams` with the default (identity) context encoder:
`nil` params pass through; otherwise the encoded bytes must start with
`[` or `\x7b` or be exactly `null`, else a local `InvalidRequest` error
is reported (`client.go`). -/
def marshalParams (params : Option Json) : Except Error (Option Json) :=
  match params with
  | none => .ok none
  | some p =>
    let pbits := render p
    if pbits.length = 0 ∨
        (pbits.head? ≠ some '[' ∧ pbits.head? ≠ some '\x7b' ∧
          pbits ≠ ['n', 'u', 'l', 'l']) then
      .error (Errorf .invalidRequest "invalid parameters: array or object required")
    else
      .ok (some p)

/-- Two's-complement wrap of an `Int` into the signed 64-bit range,
embedding Go `int64` arithmetic. -/
def wrap64 (n : Int) : Int :=
  (n + 2 ^ 63) % 2 ^ 64 - 2 ^ 63

/-- Errors observable on the client's read/teardown side: `io.EOF`, the
channel package's closing error (`channel.IsErrClosing`), the
`errClientStopped` sentinel (`error.go`), or any other read failure. -/
inductive ClientErr where
  | eof
  | chanClosing
  | clientStopped
  | readFail (msg : String)
deriving DecidableEq, Repr

/-- `channel.IsErrClosing`.  Modelled from the spec: the channel package
is not among the sources; the spec distinguishes exactly the
"channel closing" class of errors. -/
def isErrClosing : ClientErr → Bool
  | .chanClosing => true
  | _ => false

/-- A wire request (`jrequest`).  The `json.RawMessage` ID is embedded as
the integer its decimal text denotes; `none` is the absent ID of a
notification (the empty string in the Go code). -/
structure JRequest where
  V : String
  ID : Option Int
  M : String
  P : Option Json

/-- A wire response (`jresponse`), with the same ID embedding. -/
structure JResponse where
  ID : Option Int
  V : String
  R : Option Json
  E : Option Error

/-- The lock-protected state of a `Client`: the pending registry (the
keys of the `map[string]*Response`, in insertion order), the next unused
request ID, the recorded terminal error, whether the channel is still
set, and the trace of batches passed to `Channel.Send` so far. -/
structure ClientState where
  pending : List Int
  nextID : Int
  cerr : Option ClientErr
  chOpen : Bool
  sent : List (List JRequest)

/-- The state `NewClient` starts from: empty registry, ID counter 1. -/
def newClient : ClientState :=
  { pending := [], nextID := 1, cerr := none, chOpen := true, sent := [] }

/-- `Client.req`: validate and marshal the params, then allocate the next
ID and build a request carrying it.  A params failure happens before the
counter is touched. -/
def reqOp (c : ClientState) (method : String) (params : Option Json) :
    ClientState × Except Error JRequest :=
  match marshalParams params with
  | .error e => (c, .error e)
  | .ok bits =>
    ({ c with nextID := wrap64 (c.nextID + 1) },
     .ok { V := Version, ID := some c.nextID, M := method, P := bits })

/-- `Client.note`: a notification request; no ID is allocated. -/
def noteOp (method : String) (params : Option Json) : Except Error JRequest :=
  match marshalParams params with
  | .error e => .error e
  | .ok bits => .ok { V := Version, ID := none, M := method, P := bits }

/-- The failure cases of `Client.send`, tagged by the source site that
reported them. -/
inductive SendErr where
  | emptyBatch
  | prior (e : ClientErr)
  | dupID (id : Int)
  | marshalFail (msg : String)
  | chanFail (msg : String)
deriving DecidableEq, Repr

/-- `Client.send`: reject an empty batch, a client already stopped, and a
batch member whose ID is already pending; then marshal the batch and send
it, each step failing per the corresponding parameter; only after a
successful send are the non-notification IDs inserted into the registry.
Always returns the post-state alongside the result. -/
def sendBatch (c : ClientState) (reqs : List JRequest)
    (marshalErr : Option String) (chanErr : Option String) :
    ClientState × Except SendErr (List Int) :=
  if reqs.length = 0 then (c, .error .emptyBatch)
  else
    match c.cerr with
    | some e => (c, .error (.prior e))
    | none =>
      match reqs.find? (fun r => r.ID.any (fun i => c.pending.contains i)) with
      | some r => (c, .error (.dupID (r.ID.getD 0)))
      | none =>
        match marshalErr with
        | some msg => (c, .error (.marshalFail msg))
        | none =>
          match chanErr with
          | some msg => (c, .error (.chanFail msg))
          | none =>
            let newIds := reqs.filterMap (·.ID)
            ({ c with
                pending := c.pending ++ newIds,
                sent := c.sent ++ [reqs] },
             .ok newIds)

/-- What a single `Client.Call` produced up to the wait on the pending
entry. -/
inductive CallRes where
  | localErr (e : Error)
  | sendFail (e : SendErr)
  | issued (r : JRequest)

/-- The state-affecting part of `Client.Call`: build the request with
`req`, then transmit it as a one-element batch with `send`. -/
def CallStep (c : ClientState) (method : String) (params : Option Json)
    (marshalErr : Option String) (chanErr : Option String) :
    ClientState × CallRes :=
  match reqOp c method params with
  | (c1, .error e) => (c1, .localErr e)
  | (c1, .ok r) =>
    match sendBatch c1 [r] marshalErr chanErr with
    | (c2, .error e) => (c2, .sendFail e)
    | (c2, .ok _) => (c2, .issued r)

/-- Outcome of `Client.Notify`. -/
inductive NotifyRes where
  | localErr (e : Error)
  | sendFail (e : SendErr)
  | sentOk

/-- `Client.Notify`: build a notification with `note` and transmit it as
a one-element batch. -/
def NotifyStep (c : ClientState) (method : String) (params : Option Json)
    (marshalErr : Option String) (chanErr : Option String) :
    ClientState × NotifyRes :=
  match noteOp method params with
  | .error e => (c, .localErr e)
  | .ok r =>
    match sendBatch c [r] marshalErr chanErr with
    | (c2, .error e) => (c2, .sendFail e)
    | (c2, .ok _) => (c2, .sentOk)

/-- A `jrpc2.Spec` batch entry. -/
structure Spec where
  method : String
  params : Option Json
  notify : Bool

/-- The request-construction loop of `Client.Batch`: build each entry via
`note` or `req` in order, stopping at the first failure (ID allocations
already made are kept, as in the source). -/
def buildBatch (c : ClientState) (specs : List Spec) :
    ClientState × Except Error (List JRequest) :=
  match specs with
  | [] => (c, .ok [])
  | s :: rest =>
    if s.notify then
      match noteOp s.method s.params with
      | .error e => (c, .error e)
      | .ok r =>
        match buildBatch c rest with
        | (c2, .error e) => (c2, .error e)
        | (c2, .ok rs) => (c2, .ok (r :: rs))
    else
      match reqOp c s.method s.params with
      | (c1, .error e) => (c1, .error e)
      | (c1, .ok r) =>
        match buildBatch c1 rest with
        | (c2, .error e) => (c2, .error e)
        | (c2, .ok rs) => (c2, .ok (r :: rs))

/-- The state-affecting part of `Client.Batch`: construct all requests,
then transmit them as one batch. -/
def BatchStep (c : ClientState) (specs : List Spec)
    (marshalErr : Option String) (chanErr : Option String) : ClientState :=
  match buildBatch c specs with
  | (c1, .error _) => c1
  | (c1, .ok reqs) => (sendBatch c1 reqs marshalErr chanErr).1

/-- The registry effect of `Client.deliver` for a response carrying `id`:
a pending entry is removed when present; unknown IDs are dropped. -/
def deliverRemove (c : ClientState) (id : Int) : ClientState :=
  if c.pending.contains id then { c with pending := c.pending.erase id } else c

/-- The registry effect of `Client.waitComplete` when the context of
pending entry `id` ends: remove the entry if it is still registered,
otherwise do nothing ("too late"). -/
def cancelRemove (c : ClientState) (id : Int) : ClientState :=
  if c.pending.contains id then { c with pending := c.pending.erase id } else c

/-- `Client.stop`: a no-op when the channel is already cleared; otherwise
close the channel, record `e` as the final state, and report the pending
entries whose cancellation was triggered. -/
def stopClient (c : ClientState) (e : ClientErr) : ClientState × List Int :=
  if c.chOpen then
    ({ c with chOpen := false, cerr := some e }, c.pending)
  else (c, [])

/-- The observable events driving the client's registry and counter. -/
inductive CEvent where
  | callEv (method : String) (params : Option Json)
      (marshalErr : Option String) (chanErr : Option String)
  | notifyEv (method : String) (params : Option Json)
      (marshalErr : Option String) (chanErr : Option String)
  | batchEv (specs : List Spec)
      (marshalErr : Option String) (chanErr : Option String)
  | deliverEv (id : Int)
  | cancelEv (id : Int)
  | stopEv (e : ClientErr)

/-- One step of the client: each event runs the corresponding source
operation. -/
def step (c : ClientState) (ev : CEvent) : ClientState :=
  match ev with
  | .callEv m p me ce => (CallStep c m p me ce).1
  | .notifyEv m p me ce => (NotifyStep c m p me ce).1
  | .batchEv specs me ce => BatchStep c specs me ce
  | .deliverEv id => deliverRemove c id
  | .cancelEv id => cancelRemove c id
  | .stopEv e => (stopClient c e).1

/-- The ways a Go `context.Context` can end. -/
inductive CtxErr where
  | canceled
  | deadlineExceeded
deriving DecidableEq, Repr

/-- The error text of the Go context package's sentinels
(`context.Canceled` / `context.DeadlineExceeded`). -/
def ctxErrMessage : CtxErr → String
  | .canceled => "context canceled"
  | .deadlineExceeded => "context deadline exceeded"

/-- `code.FromError` on a context error.  Modelled from the spec: the
`code` package is not among the sources; the spec maps context
cancellation to `Cancelled` and deadline expiry to `DeadlineExceeded`. -/
def fromError : CtxErr → Code
  | .canceled => .cancelled
  | .deadlineExceeded => .deadlineExceeded

/-- The synthetic response `Client.waitComplete` delivers to a pending
entry whose context ended with `e`:
`jerrorf(code.FromError(pctx.Err()), pctx.Err().Error())` under the
request's ID (the version marker of this locally built value is the zero
string). -/
def cancelResponse (id : Int) (e : CtxErr) : JResponse :=
  { ID := some id, V := "",
    R := none,
    E := some (Errorf (fromError e) (ctxErrMessage e)) }

/-- Everything `Client.Close` produces: the final state, the synthetic
responses delivered to the pending entries it cancelled, and its return
value (`none` embeds a nil error). -/
structure CloseOutcome where
  state : ClientState
  delivered : List JResponse
  ret : Option ClientErr

/-- `Client.Close`: run `stop(errClientStopped)`; each pending entry
whose cancel fired is then removed by its `waitComplete` watcher, which
delivers the `cancelResponse` for a cancelled context; finally the
recorded error is suppressed when it is EOF, a channel-closing error, or
the client-stopped sentinel, and returned otherwise. -/
def closeClient (c : ClientState) : CloseOutcome :=
  let s1 := stopClient c .clientStopped
  let cancelled := s1.2
  let c2 := { s1.1 with
    pending := s1.1.pending.filter (fun i => ¬ cancelled.contains i) }
  { state := c2,
    delivered := cancelled.map (fun id => cancelResponse id .canceled),
    ret :=
      match c2.cerr with
      | none => none
      | some e =>
        if e = .eof ∨ isErrClosing e = true ∨ e = .clientStopped then none
        else some e }

/-- What the caller of `Client.Call` receives once the pending entry
completes. -/
inductive CallOutcome where
  | ok (rsp : JResponse)
  | ctxCanceled
  | ctxDeadline
  | serverErr (e : Error)

/-- The tail of `Client.Call` after the wait: a response without an error
member is returned as is; an error with code `Cancelled` becomes the
canonical `context.Canceled` sentinel, `DeadlineExceeded` becomes
`context.DeadlineExceeded`, and any other error is returned as the typed
error itself.  `Response.Error` is modelled from the spec: the `Response`
methods are not among the sources; the spec says the error member is
surfaced preserving code, message and data. -/
def callFinish (rsp : JResponse) : CallOutcome :=
  match rsp.E with
  | none => .ok rsp
  | some e =>
    match e.code with
    | .cancelled => .ctxCanceled
    | .deadlineExceeded => .ctxDeadline
    | _ => .serverErr e

/-- The in-process request view a handler receives.  `HRequest.hasParams`
is modelled from the spec: the `Request` methods are not among the
sources; the spec exposes a `HasParams` predicate that reports whether
the request carries params. -/
structure HRequest where
  method : String
  params : Option Json

/-- Whether the request carries params. -/
def HRequest.hasParams (r : HRequest) : Bool := r.params.isSome

/-- The `newinput` closure `newHandler` builds when the adapted function
takes no argument besides the context: verify no parameters were passed,
failing with `InvalidParams` (`handler.go` case 1). -/
def newInputNoArg (req : HRequest) : Except Error Unit :=
  if req.hasParams then
    .error (Errorf .invalidParams "no parameters accepted")
  else .ok ()

/-- The handler `newHandler` returns for a context-only user function
`fn`: run `newinput` on the request and stop at its error, otherwise
invoke `fn`. -/
def noArgHandler (fn : Unit → Except Error (Option Json)) (req : HRequest) :
    Except Error (Option Json) :=
  match newInputNoArg req with
  | .error e => .error e
  | .ok _ => fn ()

/-- One positional destination of an `Args` wrapper: its current stored
value and its decoder, which yields the newly stored value on success.
A `nil` destination is the `none` of the surrounding `Option`. -/
structure ArgCell where
  val : Json
  dec : Json → Option Json

/-- `json.Unmarshal` into a `[]json.RawMessage`: a JSON array yields its
elements; the JSON literal `null` is accepted for a slice and leaves it
nil (standard Go decoder behaviour); anything else is a type error. -/
def rawArray (data : Json) : Except String (List Json) :=
  match data with
  | .arr elts => .ok elts
  | .null => .ok []
  | _ => .error "cannot unmarshal value into Go value of type []json.RawMessage"

/-- The element loop of `Args.UnmarshalJSON`: a `nil` destination
discards its element; otherwise the element must decode into the
destination. -/
def argsDecode : List (Option ArgCell × Json) → Except String (List (Option ArgCell))
  | [] => .ok []
  | (none, _) :: rest => (argsDecode rest).map (fun t => none :: t)
  | (some cell, e) :: rest =>
    match cell.dec e with
    | none => .error "decoding argument"
    | some v => (argsDecode rest).map (fun t => some { cell with val := v } :: t)

/-- `Args.UnmarshalJSON`: decode the data as raw elements, require the
length to match, then run the element loop (`handler.go`). -/
def argsUnmarshalJSON (a : List (Option ArgCell)) (data : Json) :
    Except String (List (Option ArgCell)) :=
  match rawArray data with
  | .error e => .error ("decoding args: " ++ e)
  | .ok elts =>
    if elts.length ≠ a.length then .error "wrong number of args"
    else argsDecode (a.zip elts)

/-- The JSON value an `Args` element marshals as: a `nil` destination
marshals as `null`, otherwise the stored value. -/
def argsValue : Option ArgCell → Json
  | none => .null
  | some c => c.val

/-- `Args.MarshalJSON`: the literal `[]` for an empty wrapper, else the
marshalled slice (`handler.go`). -/
def argsMarshalJSON (a : List (Option ArgCell)) : List Char :=
  if a.length = 0 then ['[', ']']
  else render (.arr (a.map argsValue))

/-- Replace the binding for `k` in an association list, appending when
absent; embeds a Go map assignment `m[k] = v`. -/
def setAssoc {α : Type} (fs : List (String × α)) (k : String) (v : α) :
    List (String × α) :=
  match fs with
  | [] => [(k, v)]
  | (k1, v1) :: rest =>
    if k1 = k then (k, v) :: rest else (k1, v1) :: setAssoc rest k v

/-- The map `json.Unmarshal` builds from the members of a JSON object:
later duplicate keys overwrite earlier ones. -/
def toRawMap (fs : List (String × Json)) : List (String × Json) :=
  fs.foldl (fun m kv => setAssoc m kv.1 kv.2) []

/-- `json.Unmarshal` into a `map[string]json.RawMessage`: a JSON object
yields its member map; the JSON literal `null` is accepted for a map and
leaves it nil (standard Go decoder behaviour); anything else is a type
error. -/
def rawObj (data : Json) : Except String (List (String × Json)) :=
  match data with
  | .obj fields => .ok (toRawMap fields)
  | .null => .ok []
  | _ => .error "cannot unmarshal value into Go value of type map"

/-- The member loop of `Obj.UnmarshalJSON`: members whose key is not in
the wrapper are ignored; a mapped member must decode into its
destination (destinations are embedded by their decode-success
predicate). -/
def objDecode (o : List (String × (Json → Bool))) :
    List (String × Json) → Except String Unit
  | [] => .ok ()
  | (k, v) :: rest =>
    match o.lookup k with
    | none => objDecode o rest
    | some dec => if dec v then objDecode o rest else .error ("decoding " ++ k)

/-- `Obj.UnmarshalJSON`: decode the data as a raw member map, then run
the member loop (`handler.go`). -/
def objUnmarshalJSON (o : List (String × (Json → Bool))) (data : Json) :
    Except String Unit :=
  match rawObj data with
  | .error e => .error ("decoding object: " ++ e)
  | .ok fields => objDecode o fields

/-- `strings.SplitN(method, ".", 2)`: `none` when the name has no dot,
otherwise the part before the first dot and the remainder after it.
Method names are embedded as character lists. -/
def splitServiceMethod : List Char → Option (List Char × List Char)
  | [] => none
  | c :: rest =>
    if c = '.' then some ([], rest)
    else
      match splitServiceMethod rest with
      | none => none
      | some (pre, post) => some (c :: pre, post)

/-- An assigner: either a `handler.Map` of handlers by method name, or a
`handler.ServiceMap` of named sub-assigners. -/
inductive Assigner (H : Type) where
  | handlerMap (m : List (List Char × H))
  | serviceMap (m : List (List Char × Assigner H))

mutual

/-- `Assign`: a `handler.Map` looks the method up directly; a
`handler.ServiceMap` splits the inbound name as `Service.Method`, fails
to a null handler (`none`) when there is no dot or the service is not
registered, and otherwise passes the method part to the sub-assigner. -/
def Assigner.assign {H : Type} : Assigner H → List Char → Option H
  | .handlerMap m, method => m.lookup method
  | .serviceMap m, method =>
    match splitServiceMethod method with
    | none => none
    | some (svc, rest) => Assigner.assignList m svc rest

/-- Lookup of the service name in a `ServiceMap`, then dispatch of the
method remainder into the sub-assigner found. -/
def Assigner.assignList {H : Type} :
    List (List Char × Assigner H) → List Char → List Char → Option H
  | [], _, _ => none
  | (name, a) :: ms, svc, rest =>
    if name = svc then a.assign rest else Assigner.assignList ms svc rest

end

/-- Whether an `Except` computation succeeded. -/
def isOkE {ε α : Type} : Except ε α → Bool
  | .ok _ => true
  | .error _ => false

/-- A positional destination accepts an element when it is nil (the
element is discarded) or its decoder succeeds on it. -/
def argDecodes : Option ArgCell → Json → Prop
  | none, _ => True
  | some cell, e => ∃ v, cell.dec e = some v

/-- The client registry/counter invariant: the ID counter started at 1
and still fits `int64`, the registry holds at most one entry per ID, and
every pending ID was minted earlier (positive and below the counter), so
the next minted ID collides with none of them. -/
def ClientInv (c : ClientState) : Prop :=
  1 ≤ c.nextID ∧ c.nextID < 2 ^ 63 ∧ c.pending.Nodup ∧
    ∀ id ∈ c.pending, 1 ≤ id ∧ id < c.nextID

/-- How many non-notification requests an event constructs (each
allocates one ID). -/
def evReqCount : CEvent → Nat
  | .callEv _ _ _ _ => 1
  | .batchEv specs _ _ => (specs.filter (fun s => ¬ s.notify)).length
  | _ => 0

end Jrpc2

namespace metrics

/-- A label value held by the collector: either a plain value or the
special `func() interface\x7b\x7d` thunk whose call supplies the value at
snapshot time. -/
inductive LabelVal where
  | plain (v : Jrpc2.Json)
  | thunk (f : Unit → Jrpc2.Json)

/-- The contents of a non-nil metrics collector (`metrics.M`): counters,
maximum-value trackers, and labels, each a map by name. -/
structure MState where
  counter : List (String × Int)
  maxVal : List (String × Int)
  label : List (String × LabelVal)

/-- A `*metrics.M` handle: `none` embeds a nil collector, which is valid
and discards all metrics. -/
abbrev MRef : Type := Option MState

/-- `metrics.New`: a new, empty collector. -/
def New : MRef := some { counter := [], maxVal := [], label := [] }

/-- Remove a key's binding from an association list, embedding Go's
`delete(m, k)`. -/
def delAssoc {α : Type} (fs : List (String × α)) (k : String) :
    List (String × α) :=
  match fs with
  | [] => []
  | (k1, v1) :: rest =>
    if k1 = k then rest else (k1, v1) :: delAssoc rest k

/-- `M.Count`: add `n` to the named counter (missing counters read as 0,
the addition wraps as `int64`); a nil collector does nothing. -/
def Count (m : MRef) (name : String) (n : Int) : MRef :=
  match m with
  | none => none
  | some s =>
    some { s with
      counter :=
        Jrpc2.setAssoc s.counter name
          (Jrpc2.wrap64 ((s.counter.lookup name).getD 0 + n)) }

/-- The max-value update shared by `SetMaxValue` and `CountAndSetMax`:
store `n` when the tracker is missing or `n` exceeds it. -/
def setMax (fs : List (String × Int)) (name : String) (n : Int) :
    List (String × Int) :=
  match fs.lookup name with
  | none => Jrpc2.setAssoc fs name n
  | some old => if n > old then Jrpc2.setAssoc fs name n else fs

/-- `M.SetMaxValue`; a nil collector does nothing. -/
def SetMaxValue (m : MRef) (name : String) (n : Int) : MRef :=
  match m with
  | none => none
  | some s => some { s with maxVal := setMax s.maxVal name n }

/-- `M.CountAndSetMax`: the max-value update and the counter bump in one
step; a nil collector does nothing. -/
def CountAndSetMax (m : MRef) (name : String) (n : Int) : MRef :=
  match m with
  | none => none
  | some s =>
    some { s with
      maxVal := setMax s.maxVal name n,
      counter :=
        Jrpc2.setAssoc s.counter name
          (Jrpc2.wrap64 ((s.counter.lookup name).getD 0 + n)) }

/-- `M.SetLabel`: a nil value removes the label, any other value is
stored; a nil collector does nothing. -/
def SetLabel (m : MRef) (name : String) (value : Option LabelVal) : MRef :=
  match m with
  | none => none
  | some s =>
    some { s with
      label :=
        match value with
        | none => delAssoc s.label name
        | some v => Jrpc2.setAssoc s.label name v }

/-- `M.EditLabel`: call `edit` with the current label value (`none` when
absent); a `none` result removes the label, any other result replaces
it; a nil collector does nothing (`edit` is not called). -/
def EditLabel (m : MRef) (name : String)
    (edit : Option LabelVal → Option LabelVal) : MRef :=
  match m with
  | none => none
  | some s =>
    some { s with
      label :=
        match edit (s.label.lookup name) with
        | none => delAssoc s.label name
        | some v => Jrpc2.setAssoc s.label name v }

/-- The destination of `M.Snapshot`: per-kind maps that are only written
when non-nil. -/
structure SnapDest where
  Counter : Option (List (String × Int))
  MaxValue : Option (List (String × Int))
  Label : Option (List (String × Jrpc2.Json))

/-- Copy the collector's entries into a destination map, embedding the
range-and-assign loops of `M.Snapshot`. -/
def copyInto {α : Type} (dst : List (String × α)) (src : List (String × α)) :
    List (String × α) :=
  src.foldl (fun m kv => Jrpc2.setAssoc m kv.1 kv.2) dst

/-- The value a label contributes to a snapshot: thunks are called,
plain values are copied. -/
def labelValue : LabelVal → Jrpc2.Json
  | .plain v => v
  | .thunk f => f ()

/-- `M.Snapshot`: copy counters, maxima and labels into the non-nil
fields of the destination; a nil collector leaves the destination
untouched. -/
def Snapshot (m : MRef) (snap : SnapDest) : SnapDest :=
  match m with
  | none => snap
  | some s =>
    { Counter := snap.Counter.map (fun c => copyInto c s.counter),
      MaxValue := snap.MaxValue.map (fun v => copyInto v s.maxVal),
      Label :=
        snap.Label.map (fun v =>
          copyInto v (s.label.map (fun kv => (kv.1, labelValue kv.2)))) }

end metrics

namespace Jrpc2

/-- C10: every method of the metrics collector (Count, SetMaxValue,
CountAndSetMax, SetLabel, EditLabel, Snapshot) invoked on a nil
collector is a safe no-op: it is defined, returns the nil collector (or
the untouched snapshot destination), and changes nothing, so a nil
collector validly discards all metrics. -/
theorem nil_metrics_noop :
    ∀ (name : String) (n : Int) (value : Option metrics.LabelVal)
      (edit : Option metrics.LabelVal → Option metrics.LabelVal)
      (snap : metrics.SnapDest),
      metrics.Count none name n = none ∧
      metrics.SetMaxValue none name n = none ∧
      metrics.CountAndSetMax none name n = none ∧
      metrics.SetLabel none name value = none ∧
      metrics.EditLabel none name edit = none ∧
      metrics.Snapshot none snap = snap := by
  intro name n value edit snap
  exact ⟨rfl, rfl, rfl, rfl, rfl, rfl⟩

/-- C6: a handler adapted from a context-only function rejects every
request that carries params with an `InvalidParams` error, without
invoking the user function (the outcome does not depend on it), and on a
request without params it invokes the user function. -/
theorem noarg_handler_rejects_params :
    ∀ (fn fn2 : Unit → Except Error (Option Json)) (req : HRequest),
      (req.hasParams = true →
        noArgHandler fn req =
          .error (Errorf .invalidParams "no parameters accepted") ∧
        noArgHandler fn req = noArgHandler fn2 req) ∧
      (req.hasParams = false → noArgHandler fn req = fn ()) := by
  intro fn fn2 req
  constructor
  · intro h
    constructor <;> simp [noArgHandler, newInputNoArg, h]
  · intro h
    simp [noArgHandler, newInputNoArg, h]

/-- Witness for C6 at concrete requests: params present is rejected,
params absent reaches the user function. -/
theorem noarg_handler_rejects_params_witness :
    noArgHandler (fun _ => .ok none)
        { method := "m", params := some Json.null } =
      .error (Errorf .invalidParams "no parameters accepted") ∧
    noArgHandler (fun _ => .ok none) { method := "m", params := none } =
      .ok none :=
  ⟨((noarg_handler_rejects_params (fun _ => .ok none) (fun _ => .ok none)
      { method := "m", params := some Json.null }).1 rfl).1,
   (noarg_handler_rejects_params (fun _ => .ok none) (fun _ => .ok none)
      { method := "m", params := none }).2 rfl⟩

/-- C5: the completion of `Client.Call` returns the successful response
when the delivered response has no error member; an error with code
`Cancelled` is returned as the canonical context-cancelled sentinel, one
with code `DeadlineExceeded` as the canonical deadline sentinel, and any
other error is returned as the typed server error itself, preserving its
code, message and data. -/
theorem call_error_mapping :
    ∀ (rsp : JResponse) (e : Error),
      (rsp.E = none → callFinish rsp = .ok rsp) ∧
      (rsp.E = some e → e.code = .cancelled →
        callFinish rsp = .ctxCanceled) ∧
      (rsp.E = some e → e.code = .deadlineExceeded →
        callFinish rsp = .ctxDeadline) ∧
      (rsp.E = some e → e.code ≠ .cancelled → e.code ≠ .deadlineExceeded →
        callFinish rsp = .serverErr e) := by
  intro rsp e
  refine ⟨?_, ?_, ?_, ?_⟩
  · intro h
    simp [callFinish, h]
  · intro h hc
    simp [callFinish, h, hc]
  · intro h hc
    simp [callFinish, h, hc]
  · intro h hc hd
    cases hcode : e.code <;> simp_all [callFinish]

/-- Witness for C5 at concrete responses: one per branch of the
mapping. -/
theorem call_error_mapping_witness :
    callFinish { ID := some 1, V := "2.0", R := some (.num 5), E := none } =
      .ok { ID := some 1, V := "2.0", R := some (.num 5), E := none } ∧
    callFinish
        { ID := some 1, V := "2.0", R := none,
          E := some (Errorf .cancelled "c") } = .ctxCanceled ∧
    callFinish
        { ID := some 1, V := "2.0", R := none,
          E := some (Errorf .deadlineExceeded "d") } = .ctxDeadline ∧
    callFinish
        { ID := some 1, V := "2.0", R := none,
          E := some (Errorf .methodNotFound "nf") } =
      .serverErr (Errorf .methodNotFound "nf") :=
  ⟨(call_error_mapping _ (Errorf .cancelled "c")).1 rfl,
   (call_error_mapping _ (Errorf .cancelled "c")).2.1 rfl rfl,
   (call_error_mapping _ (Errorf .deadlineExceeded "d")).2.2.1 rfl rfl,
   (call_error_mapping _ (Errorf .methodNotFound "nf")).2.2.2 rfl
     (by decide) (by decide)⟩

/-- C3 (evaluation at the failing input): closing a client with one
pending request (ID 1) closes the channel and delivers to that entry a
`Cancelled`-coded response whose message is the context package's
"context canceled" text — not "client channel terminated" — while the
return value of Close is nil there, nil when the recorded read-side
error is EOF or a channel-closing error, and the recorded error for any
other read-side failure. -/
theorem close_cancel_message_eval :
    (closeClient
        { pending := [1], nextID := 2, cerr := none, chOpen := true,
          sent := [] }).delivered =
      [{ ID := some 1, V := "", R := none,
         E := some { code := Code.cancelled, message := "context canceled",
                     data := none } }] ∧
    "context canceled" ≠ "client channel terminated" ∧
    (closeClient
        { pending := [1], nextID := 2, cerr := none, chOpen := true,
          sent := [] }).ret = none ∧
    (closeClient
        { pending := [], nextID := 2, cerr := some (.readFail "boom"),
          chOpen := false, sent := [] }).ret = some (.readFail "boom") ∧
    (closeClient
        { pending := [], nextID := 2, cerr := some .eof, chOpen := false,
          sent := [] }).ret = none ∧
    (closeClient
        { pending := [], nextID := 2, cerr := some .chanClosing,
          chOpen := false, sent := [] }).ret = none := by
  refine ⟨rfl, by decide, rfl, rfl, rfl, rfl⟩

end Jrpc2

namespace Jrpc2

/-- The split succeeds exactly on names containing a dot, yielding the
prefix before the first dot and the remainder after it. -/
theorem splitServiceMethod_eq_some :
    ∀ (s pre post : List Char),
      splitServiceMethod s = some (pre, post) ↔
        (s = pre ++ '.' :: post ∧ '.' ∉ pre) := by
  intro s
  induction s with
  | nil =>
    intro pre post
    constructor
    · intro h
      simp [splitServiceMethod] at h
    · rintro ⟨h, _⟩
      cases pre <;> simp_all
  | cons c rest ih =>
    intro pre post
    by_cases hc : c = '.'
    · subst hc
      rw [show splitServiceMethod ('.' :: rest) = some ([], rest) from rfl]
      constructor
      · intro h
        obtain ⟨h1, h2⟩ := Prod.mk.injEq _ _ _ _ ▸ Option.some.injEq _ _ ▸ h
        subst h1; subst h2
        simp
      · rintro ⟨h, hmem⟩
        cases pre with
        | nil =>
          simp only [List.nil_append, List.cons.injEq] at h
          rw [h.2]
        | cons p ps =>
          simp only [List.cons_append, List.cons.injEq] at h
          exact absurd
            (show ('.' ∈ p :: ps) by rw [h.1]; exact List.mem_cons_self _ _)
            hmem
    · simp only [splitServiceMethod, if_neg hc]
      cases hsp : splitServiceMethod rest with
      | none =>
        constructor
        · intro h
          exact Option.noConfusion h
        rintro ⟨h, hmem⟩
        cases pre with
        | nil =>
          simp only [List.nil_append, List.cons.injEq] at h
          exact absurd h.1 hc
        | cons p ps =>
          simp only [List.cons_append, List.cons.injEq] at h
          have := (ih ps post).2 ⟨h.2, fun hm => hmem (by simp [hm])⟩
          rw [hsp] at this
          exact Option.noConfusion this
      | some pr =>
        obtain ⟨pre1, post1⟩ := pr
        have hrest := (ih pre1 post1).1 hsp
        simp only [Option.some.injEq, Prod.mk.injEq]
        constructor
        · rintro ⟨h1, h2⟩
          subst h1; subst h2
          refine ⟨by rw [hrest.1]; rfl, ?_⟩
          intro hm
          rcases List.mem_cons.1 hm with h | h
          · exact hc h.symm
          · exact hrest.2 h
        · rintro ⟨h, hmem⟩
          cases pre with
          | nil =>
            simp only [List.nil_append, List.cons.injEq] at h
            exact absurd h.1 hc
          | cons p ps =>
            simp only [List.cons_append, List.cons.injEq] at h
            have := (ih ps post).2 ⟨h.2, fun hm => hmem (by simp [hm])⟩
            rw [hsp] at this
            obtain ⟨h3, h4⟩ := Prod.mk.injEq _ _ _ _ ▸ Option.some.injEq _ _ ▸ this
            exact ⟨by rw [h.1, h3], h4⟩

/-- The split fails exactly on names containing no dot. -/
theorem splitServiceMethod_eq_none :
    ∀ (s : List Char), splitServiceMethod s = none ↔ '.' ∉ s := by
  intro s
  induction s with
  | nil => simp [splitServiceMethod]
  | cons c rest ih =>
    by_cases hc : c = '.'
    · subst hc
      simp [splitServiceMethod]
    · simp only [splitServiceMethod, if_neg hc]
      cases hsp : splitServiceMethod rest with
      | none =>
        rw [hsp] at ih
        simp only [true_iff] at ih
        simp [List.mem_cons, hc, ih]
        intro h
        exact absurd h.symm hc
      | some pr =>
        obtain ⟨pre1, post1⟩ := pr
        have ih2 : '.' ∈ rest := by
          by_contra hmem
          rw [ih.2 hmem] at hsp
          exact Option.noConfusion hsp
        simp [List.mem_cons, ih2]

/-- The service lookup loop agrees with an association-list lookup. -/
theorem assignList_eq_lookup {H : Type} :
    ∀ (m : List (List Char × Assigner H)) (svc rest : List Char),
      Assigner.assignList m svc rest =
        match m.lookup svc with
        | some a => a.assign rest
        | none => none := by
  intro m svc rest
  induction m with
  | nil => rfl
  | cons kv ms ih =>
    obtain ⟨name, a⟩ := kv
    by_cases h : name = svc
    · subst h
      simp [Assigner.assignList, List.lookup]
    · rw [Assigner.assignList, if_neg h, ih]
      have hbe : (svc == name) = false := by
        simp [beq_iff_eq]
        exact fun he => h he.symm
      simp [List.lookup, hbe]

end Jrpc2

namespace Jrpc2

/-- C9: a `ServiceMap` lookup on a method name with no dot yields the
null handler; otherwise the name splits at its first dot into Service
and Method (so exactly one dot is consumed per composition level and
there is no partial-prefix matching), and the lookup is the registered
sub-assigner applied to the Method part, or the null handler when the
Service is not registered. -/
theorem servicemap_assign_splits :
    ∀ (H : Type) (m : List (List Char × Assigner H)) (s pre post : List Char),
      ('.' ∉ s → (Assigner.serviceMap m).assign s = none) ∧
      (s = pre ++ '.' :: post → '.' ∉ pre →
        (Assigner.serviceMap m).assign s =
          match m.lookup pre with
          | some a => a.assign post
          | none => none) := by
  intro H m s pre post
  constructor
  · intro h
    have hs := (splitServiceMethod_eq_none s).2 h
    simp [Assigner.assign, hs]
  · intro hshape hmem
    have hs := (splitServiceMethod_eq_some s pre post).2 ⟨hshape, hmem⟩
    simp only [Assigner.assign, hs]
    exact assignList_eq_lookup m pre post

/-- Witness for C9 at a concrete two-level service map: a dotless name
misses, `s.m` routes through service `s` to method `m`, and a nested
map consumes one dot per level. -/
theorem servicemap_assign_splits_witness :
    (Assigner.serviceMap
        [(['s'], Assigner.handlerMap [(['m'], (0 : Nat))])]).assign
        ['s'] = none ∧
    (Assigner.serviceMap
        [(['s'], Assigner.handlerMap [(['m'], (0 : Nat))])]).assign
        ['s', '.', 'm'] = some 0 ∧
    (Assigner.serviceMap
        [(['s'],
          Assigner.serviceMap
            [(['t'], Assigner.handlerMap [(['m'], (3 : Nat))])])]).assign
        ['s', '.', 't', '.', 'm'] = some 3 := by
  refine ⟨(servicemap_assign_splits Nat _ ['s'] [] []).1 (by decide), ?_, ?_⟩
  · have h := (servicemap_assign_splits Nat
        [(['s'], Assigner.handlerMap [(['m'], (0 : Nat))])]
        ['s', '.', 'm'] ['s'] ['m']).2 rfl (by decide)
    rw [h]
    rfl
  · have h := (servicemap_assign_splits Nat
        [(['s'],
          Assigner.serviceMap
            [(['t'], Assigner.handlerMap [(['m'], (3 : Nat))])])]
        ['s', '.', 't', '.', 'm'] ['s'] ['t', '.', 'm']).2 rfl (by decide)
    rw [h]
    rfl

end Jrpc2

namespace Jrpc2

/-- Digit characters are never `[`, the open brace, or `n`. -/
theorem digitChar_not_special :
    ∀ d, digitChar d ≠ '[' ∧ digitChar d ≠ '\x7b' ∧ digitChar d ≠ 'n' := by
  intro d
  unfold digitChar
  split <;> exact ⟨by decide, by decide, by decide⟩

/-- The digits of a natural number are nonempty and start with a digit
character. -/
theorem natDigits_head :
    ∀ n : Nat, ∃ d rest, natDigits n = digitChar d :: rest := by
  intro n
  induction n using Nat.strong_induction_on with
  | _ n ih =>
    rw [natDigits]
    split
    · exact ⟨n, [], rfl⟩
    · next h =>
      obtain ⟨d, rest, hd⟩ := ih (n / 10) (Nat.div_lt_self (by omega) (by omega))
      exact ⟨d, rest ++ [digitChar (n % 10)], by rw [hd]; rfl⟩

/-- A rendered number starts with a minus sign or a digit, never with
`[`, the open brace, or `n`. -/
theorem render_num_shape (n : Int) :
    ∃ c rest, render (.num n) = c :: rest ∧
      c ≠ '[' ∧ c ≠ '\x7b' ∧ c ≠ 'n' := by
  obtain ⟨d, rest, hd⟩ := natDigits_head n.natAbs
  obtain ⟨h1, h2, h3⟩ := digitChar_not_special d
  by_cases hn : n < 0
  · exact ⟨'-', natDigits n.natAbs, by simp [render, hn],
      by decide, by decide, by decide⟩
  · exact ⟨digitChar d, rest, by simp [render, hn, hd], h1, h2, h3⟩

/-- A document whose rendering starts with a byte other than `[`, the
open brace, or `n` is rejected by `marshalParams` with the local
`InvalidRequest` error. -/
theorem marshalParams_error_of_head (p : Json) (c : Char) (rest : List Char)
    (hr : render p = c :: rest) (h1 : c ≠ '[') (h2 : c ≠ '\x7b')
    (h3 : c ≠ 'n') :
    marshalParams (some p) =
      .error (Errorf .invalidRequest
        "invalid parameters: array or object required") := by
  simp only [marshalParams, hr]
  rw [if_pos]
  refine Or.inr ⟨by simp [h1], by simp [h2], ?_⟩
  intro he
  rw [List.cons.injEq] at he
  exact h3 he.1

/-- `marshalParams` classified by the shape of the params document:
arrays, objects and null are accepted unchanged; every other document is
rejected with the local `InvalidRequest` error. -/
theorem marshalParams_classify (p : Json) :
    ((p.isArr = true ∨ p.isObj = true ∨ p.isNull = true) →
      marshalParams (some p) = .ok (some p)) ∧
    (p.isArr = false → p.isObj = false → p.isNull = false →
      marshalParams (some p) =
        .error (Errorf .invalidRequest
          "invalid parameters: array or object required")) := by
  constructor
  · intro h
    cases p with
    | null => rfl
    | arr elts => simp [marshalParams, render]
    | obj fields => simp [marshalParams, render]
    | bool b => simp [Json.isArr, Json.isObj, Json.isNull] at h
    | num n => simp [Json.isArr, Json.isObj, Json.isNull] at h
    | str s => simp [Json.isArr, Json.isObj, Json.isNull] at h
  · intro h1 h2 h3
    cases p with
    | null => simp [Json.isNull] at h3
    | arr elts => simp [Json.isArr] at h1
    | obj fields => simp [Json.isObj] at h2
    | bool b =>
      cases b
      · exact marshalParams_error_of_head _ 'f' _ rfl
          (by decide) (by decide) (by decide)
      · exact marshalParams_error_of_head _ 't' _ rfl
          (by decide) (by decide) (by decide)
    | num n =>
      obtain ⟨c, rest, hr, hc1, hc2, hc3⟩ := render_num_shape n
      exact marshalParams_error_of_head _ c rest hr hc1 hc2 hc3
    | str s =>
      exact marshalParams_error_of_head _ '"' _ rfl
        (by decide) (by decide) (by decide)

/-- C4: a request or notification whose params document is neither an
array, an object, nor null fails locally with the `InvalidRequest`-coded
error "invalid parameters: array or object required", leaving the client
state (in particular the trace of frames passed to the channel)
untouched; nil params, arrays, objects and null are accepted. -/
theorem params_validated_locally :
    ∀ (p : Json) (c : ClientState) (m : String) (me ce : Option String),
      (p.isArr = false → p.isObj = false → p.isNull = false →
        marshalParams (some p) =
          .error (Errorf .invalidRequest
            "invalid parameters: array or object required") ∧
        (CallStep c m (some p) me ce).1 = c ∧
        (CallStep c m (some p) me ce).2 =
          .localErr (Errorf .invalidRequest
            "invalid parameters: array or object required") ∧
        (NotifyStep c m (some p) me ce).1 = c ∧
        (NotifyStep c m (some p) me ce).2 =
          .localErr (Errorf .invalidRequest
            "invalid parameters: array or object required")) ∧
      ((p.isArr = true ∨ p.isObj = true ∨ p.isNull = true) →
        marshalParams (some p) = .ok (some p)) ∧
      marshalParams none = .ok none := by
  intro p c m me ce
  refine ⟨?_, (marshalParams_classify p).1, rfl⟩
  intro h1 h2 h3
  have herr := (marshalParams_classify p).2 h1 h2 h3
  refine ⟨herr, ?_, ?_, ?_, ?_⟩ <;>
    simp [CallStep, NotifyStep, reqOp, noteOp, herr]

/-- Witness for C4 at concrete params: a bare string is rejected before
anything reaches the channel; an empty object is accepted. -/
theorem params_validated_locally_witness :
    (CallStep newClient "m" (some (.str "x")) none none).1 = newClient ∧
    marshalParams (some (.obj [])) = .ok (some (.obj [])) :=
  ⟨((params_validated_locally (.str "x") newClient "m" none none).1
      rfl rfl rfl).2.1,
   (params_validated_locally (.obj []) newClient "m" none none).2.1
      (Or.inr (Or.inl rfl))⟩

end Jrpc2

namespace Jrpc2

/-- Mapping the success value does not change whether an `Except`
computation succeeded. -/
theorem isOkE_map {ε α β : Type} (f : α → β) (x : Except ε α) :
    isOkE (x.map f) = isOkE x := by
  cases x <;> rfl

/-- The element loop of `Args.UnmarshalJSON` succeeds exactly when every
element decodes into its destination (nil destinations accept
anything). -/
theorem argsDecode_isOk :
    ∀ (pairs : List (Option ArgCell × Json)),
      isOkE (argsDecode pairs) = true ↔ ∀ pr ∈ pairs, argDecodes pr.1 pr.2 := by
  intro pairs
  induction pairs with
  | nil => simp [argsDecode, isOkE]
  | cons pr rest ih =>
    obtain ⟨d, e⟩ := pr
    cases d with
    | none =>
      rw [show argsDecode ((none, e) :: rest) =
            (argsDecode rest).map (fun t => none :: t) from rfl, isOkE_map]
      constructor
      · intro h pr2 hmem
        rcases List.mem_cons.1 hmem with h2 | h2
        · rw [h2]; exact trivial
        · exact ih.1 h pr2 h2
      · intro h
        exact ih.2 (fun pr2 h2 => h pr2 (List.mem_cons_of_mem _ h2))
    | some cell =>
      cases hdec : cell.dec e with
      | none =>
        constructor
        · intro h
          rw [show argsDecode ((some cell, e) :: rest) =
                .error "decoding argument" from by simp [argsDecode, hdec]] at h
          exact absurd h (by simp [isOkE])
        · intro h
          obtain ⟨v, hv⟩ := h (some cell, e) (List.mem_cons_self _ _)
          rw [hdec] at hv
          exact Option.noConfusion hv
      | some v =>
        rw [show argsDecode ((some cell, e) :: rest) =
              (argsDecode rest).map
                (fun t => some { cell with val := v } :: t) from
              by simp [argsDecode, hdec], isOkE_map]
        constructor
        · intro h pr2 hmem
          rcases List.mem_cons.1 hmem with h2 | h2
          · rw [h2]; exact ⟨v, hdec⟩
          · exact ih.1 h pr2 h2
        · intro h
          exact ih.2 (fun pr2 h2 => h pr2 (List.mem_cons_of_mem _ h2))

/-- C7 (amended): unmarshaling into an `Args` value of length L
succeeds exactly when the JSON is an array of exactly L elements each
of which decodes into the corresponding destination (a nil destination
discarding its element), or when L = 0 and the JSON is null (the
decoder accepts null for a slice, leaving it empty); a length mismatch
is an error; marshaling produces the rendering of a JSON array of
length L, which for L = 0 is the literal `[]`. -/
theorem args_wrapper_spec :
    ∀ (a : List (Option ArgCell)) (data : Json),
      (isOkE (argsUnmarshalJSON a data) = true ↔
        ((∃ elts, data = .arr elts ∧ elts.length = a.length ∧
            ∀ pr ∈ a.zip elts, argDecodes pr.1 pr.2) ∨
          (data = .null ∧ a.length = 0))) ∧
      argsMarshalJSON a = render (.arr (a.map argsValue)) ∧
      (a.map argsValue).length = a.length := by
  intro a data
  refine ⟨?_, ?_, by simp⟩
  · cases data with
    | arr elts =>
      simp only [argsUnmarshalJSON, rawArray]
      by_cases hlen : elts.length = a.length
      · rw [if_neg (by simp [hlen])]
        rw [argsDecode_isOk]
        constructor
        · intro h
          exact Or.inl ⟨elts, rfl, hlen, h⟩
        · rintro (⟨elts2, he, _, hdec⟩ | ⟨hnull, _⟩)
          · injection he with he1
            subst he1
            exact hdec
          · exact Json.noConfusion hnull
      · rw [if_pos (by simp [hlen])]
        refine iff_of_false (by simp [isOkE]) ?_
        rintro (⟨elts2, he, hl2, _⟩ | ⟨hnull, _⟩)
        · injection he with he1
          subst he1
          exact hlen hl2
        · exact Json.noConfusion hnull
    | null =>
      simp only [argsUnmarshalJSON, rawArray]
      by_cases hlen : a.length = 0
      · rw [if_neg (by simp [hlen])]
        rw [List.zip_nil_right]
        exact iff_of_true rfl (Or.inr ⟨trivial, hlen⟩)
      · rw [if_pos (by simp; omega)]
        refine iff_of_false (by simp [isOkE]) ?_
        rintro (⟨elts2, he, _, _⟩ | ⟨_, hl⟩)
        · exact Json.noConfusion he
        · exact hlen hl
    | bool b =>
      refine iff_of_false (by simp [argsUnmarshalJSON, rawArray, isOkE]) ?_
      rintro (⟨elts2, he, _, _⟩ | ⟨hnull, _⟩)
      · exact Json.noConfusion he
      · exact Json.noConfusion hnull
    | num n =>
      refine iff_of_false (by simp [argsUnmarshalJSON, rawArray, isOkE]) ?_
      rintro (⟨elts2, he, _, _⟩ | ⟨hnull, _⟩)
      · exact Json.noConfusion he
      · exact Json.noConfusion hnull
    | str s =>
      refine iff_of_false (by simp [argsUnmarshalJSON, rawArray, isOkE]) ?_
      rintro (⟨elts2, he, _, _⟩ | ⟨hnull, _⟩)
      · exact Json.noConfusion he
      · exact Json.noConfusion hnull
    | obj fields =>
      refine iff_of_false (by simp [argsUnmarshalJSON, rawArray, isOkE]) ?_
      rintro (⟨elts2, he, _, _⟩ | ⟨hnull, _⟩)
      · exact Json.noConfusion he
      · exact Json.noConfusion hnull
  · cases a with
    | nil => rfl
    | cons d rest => simp [argsMarshalJSON]

/-- C7 counterexample: unmarshaling JSON `null` into an empty `Args`
succeeds even though `null` is not an array, refuting "succeeds exactly
when the JSON is an array of exactly L elements". -/
theorem args_null_accepted :
    isOkE (argsUnmarshalJSON [] Json.null) = true ∧
    Json.isArr Json.null = false :=
  ⟨rfl, rfl⟩

end Jrpc2

namespace Jrpc2

/-- The member loop of `Obj.UnmarshalJSON` succeeds exactly when every
member whose key is mapped by the wrapper decodes into its
destination. -/
theorem objDecode_isOk :
    ∀ (o : List (String × (Json → Bool))) (fields : List (String × Json)),
      isOkE (objDecode o fields) = true ↔
        ∀ k v, (k, v) ∈ fields →
          ∀ dec, o.lookup k = some dec → dec v = true := by
  intro o fields
  induction fields with
  | nil => simp [objDecode, isOkE]
  | cons kv rest ih =>
    obtain ⟨k, v⟩ := kv
    cases hl : o.lookup k with
    | none =>
      rw [show objDecode o ((k, v) :: rest) = objDecode o rest from
            by simp [objDecode, hl]]
      rw [ih]
      constructor
      · intro h k2 v2 hmem dec hdec
        rcases List.mem_cons.1 hmem with h2 | h2
        · injection h2 with ha hb
          subst ha; subst hb
          rw [hl] at hdec
          exact Option.noConfusion hdec
        · exact h k2 v2 h2 dec hdec
      · intro h k2 v2 h2 dec hdec
        exact h k2 v2 (List.mem_cons_of_mem _ h2) dec hdec
    | some dec =>
      by_cases hv : dec v = true
      · rw [show objDecode o ((k, v) :: rest) = objDecode o rest from
              by simp [objDecode, hl, hv]]
        rw [ih]
        constructor
        · intro h k2 v2 hmem dec2 hdec
          rcases List.mem_cons.1 hmem with h2 | h2
          · injection h2 with ha hb
            subst ha; subst hb
            rw [hl] at hdec
            injection hdec with hdec1
            rw [← hdec1]
            exact hv
          · exact h k2 v2 h2 dec2 hdec
        · intro h k2 v2 h2 dec2 hdec
          exact h k2 v2 (List.mem_cons_of_mem _ h2) dec2 hdec
      · rw [show objDecode o ((k, v) :: rest) = .error ("decoding " ++ k) from
              by simp [objDecode, hl, hv]]
        refine iff_of_false (by simp [isOkE]) ?_
        intro h
        exact hv (h k v (List.mem_cons_self _ _) dec hl)

/-- Assigning a key absent from the map appends the binding. -/
theorem setAssoc_not_mem {α : Type} :
    ∀ (acc : List (String × α)) (k : String) (v : α),
      k ∉ acc.map Prod.fst → setAssoc acc k v = acc ++ [(k, v)] := by
  intro acc k v
  induction acc with
  | nil => intro _; rfl
  | cons kv rest ih =>
    obtain ⟨k1, v1⟩ := kv
    intro h
    simp only [List.map_cons, List.mem_cons] at h
    push_neg at h
    simp only [setAssoc]
    rw [if_neg (fun he => h.1 he.symm), ih h.2]
    rfl

/-- Folding member assignments over a key-distinct suffix appends it
unchanged. -/
theorem toRawMap_fold :
    ∀ (fs acc : List (String × Json)),
      ((acc ++ fs).map Prod.fst).Nodup →
      fs.foldl (fun m kv => setAssoc m kv.1 kv.2) acc = acc ++ fs := by
  intro fs
  induction fs with
  | nil =>
    intro acc _
    simp
  | cons kv rest ih =>
    intro acc h
    obtain ⟨k, v⟩ := kv
    rw [List.foldl_cons]
    have hk : k ∉ acc.map Prod.fst := by
      intro hmem
      rw [List.map_append] at h
      exact (List.nodup_append.1 h).2.2 hmem
        (by simp)
    have h2 : ((acc ++ [(k, v)] ++ rest).map Prod.fst).Nodup := by
      rw [List.append_assoc]
      exact h
    rw [show setAssoc acc (k, v).1 (k, v).2 = acc ++ [(k, v)] from
          setAssoc_not_mem acc k v hk]
    rw [ih (acc ++ [(k, v)]) h2]
    simp

/-- A member list with pairwise-distinct keys is its own raw map. -/
theorem toRawMap_nodup :
    ∀ (fields : List (String × Json)),
      (fields.map Prod.fst).Nodup → toRawMap fields = fields := by
  intro fields h
  have := toRawMap_fold fields [] (by simpa using h)
  simpa [toRawMap] using this

/-- C8 (amended): unmarshaling into an `Obj` wrapper succeeds exactly
when the JSON is an object and, for each key present in both the object
(after duplicate keys collapse, later members winning, as the raw-map
decoding does) and the wrapper, the member value decodes into the
mapped destination — or the JSON is null, which the decoder accepts for
a map and treats as empty; keys present in the JSON but absent from the
wrapper are ignored and cause no error.  For objects with distinct keys
the raw map is the member list itself. -/
theorem obj_wrapper_spec :
    ∀ (o : List (String × (Json → Bool))) (data : Json),
      (isOkE (objUnmarshalJSON o data) = true ↔
        ((∃ fields, data = .obj fields ∧
            ∀ k v, (k, v) ∈ toRawMap fields →
              ∀ dec, o.lookup k = some dec → dec v = true) ∨
          data = .null)) ∧
      (∀ fields : List (String × Json),
        (fields.map Prod.fst).Nodup → toRawMap fields = fields) := by
  intro o data
  refine ⟨?_, toRawMap_nodup⟩
  cases data with
  | obj fields =>
    rw [show objUnmarshalJSON o (.obj fields) = objDecode o (toRawMap fields)
          from rfl]
    rw [objDecode_isOk]
    constructor
    · intro h
      exact Or.inl ⟨fields, rfl, h⟩
    · rintro (⟨fields2, he, h⟩ | hnull)
      · injection he with he1
        subst he1
        exact h
      · exact Json.noConfusion hnull
  | null =>
    refine iff_of_true rfl (Or.inr rfl)
  | arr elts =>
    refine iff_of_false (by simp [objUnmarshalJSON, rawObj, isOkE]) ?_
    rintro (⟨fields2, he, _⟩ | hnull)
    · exact Json.noConfusion he
    · exact Json.noConfusion hnull
  | bool b =>
    refine iff_of_false (by simp [objUnmarshalJSON, rawObj, isOkE]) ?_
    rintro (⟨fields2, he, _⟩ | hnull)
    · exact Json.noConfusion he
    · exact Json.noConfusion hnull
  | num n =>
    refine iff_of_false (by simp [objUnmarshalJSON, rawObj, isOkE]) ?_
    rintro (⟨fields2, he, _⟩ | hnull)
    · exact Json.noConfusion he
    · exact Json.noConfusion hnull
  | str s =>
    refine iff_of_false (by simp [objUnmarshalJSON, rawObj, isOkE]) ?_
    rintro (⟨fields2, he, _⟩ | hnull)
    · exact Json.noConfusion he
    · exact Json.noConfusion hnull

/-- C8 counterexample: unmarshaling JSON `null` into an `Obj` wrapper
succeeds — even with a destination whose decode always fails — though
`null` is not an object, refuting "succeeds exactly when the JSON is an
object". -/
theorem obj_null_accepted :
    isOkE (objUnmarshalJSON [("a", fun _ => false)] Json.null) = true ∧
    Json.isObj Json.null = false :=
  ⟨rfl, rfl⟩

end Jrpc2


namespace Jrpc2

/-- `Client.send` either fails leaving the state untouched, or succeeds
having verified no batch member's ID was already pending, appending
exactly the batch's non-notification IDs to the registry. -/
theorem sendBatch_cases :
    ∀ (c : ClientState) (reqs : List JRequest) (me ce : Option String),
      ((sendBatch c reqs me ce).1 = c ∧
        ∃ e, (sendBatch c reqs me ce).2 = .error e) ∨
      ((sendBatch c reqs me ce).1 =
          { c with pending := c.pending ++ reqs.filterMap (·.ID),
                   sent := c.sent ++ [reqs] } ∧
        (sendBatch c reqs me ce).2 = .ok (reqs.filterMap (·.ID)) ∧
        me = none ∧ ce = none ∧ c.cerr = none ∧
        ∀ r ∈ reqs, ∀ i, r.ID = some i → i ∉ c.pending) := by
  intro c reqs me ce
  by_cases h0 : reqs.length = 0
  · have hs : sendBatch c reqs me ce = (c, .error .emptyBatch) := by
      simp only [sendBatch, if_pos h0]
    rw [hs]
    exact Or.inl ⟨rfl, .emptyBatch, rfl⟩
  cases hc : c.cerr with
  | some e =>
    have hs : sendBatch c reqs me ce = (c, .error (.prior e)) := by
      simp only [sendBatch, if_neg h0, hc]
    rw [hs]
    exact Or.inl ⟨rfl, .prior e, rfl⟩
  | none =>
    cases hf : reqs.find? (fun r => r.ID.any (fun i => c.pending.contains i)) with
    | some r =>
      have hs : sendBatch c reqs me ce = (c, .error (.dupID (r.ID.getD 0))) := by
        simp only [sendBatch, if_neg h0, hc, hf]
      rw [hs]
      exact Or.inl ⟨rfl, .dupID (r.ID.getD 0), rfl⟩
    | none =>
      have hfresh : ∀ r ∈ reqs, ∀ i, r.ID = some i → i ∉ c.pending := by
        intro r hr i hid hmem
        have hall := List.find?_eq_none.1 hf r hr
        rw [hid] at hall
        simp only [Option.any_some] at hall
        exact hall (by simpa using hmem)
      cases me with
      | some msg =>
        have hs : sendBatch c reqs (some msg) ce =
            (c, .error (.marshalFail msg)) := by
          simp only [sendBatch, if_neg h0, hc, hf]
        rw [hs]
        exact Or.inl ⟨rfl, .marshalFail msg, rfl⟩
      | none =>
        cases ce with
        | some msg =>
          have hs : sendBatch c reqs none (some msg) =
              (c, .error (.chanFail msg)) := by
            simp only [sendBatch, if_neg h0, hc, hf]
          rw [hs]
          exact Or.inl ⟨rfl, .chanFail msg, rfl⟩
        | none =>
          have hs : sendBatch c reqs none none =
              ({ c with pending := c.pending ++ reqs.filterMap (·.ID),
                        sent := c.sent ++ [reqs] },
               .ok (reqs.filterMap (·.ID))) := by
            simp only [sendBatch, if_neg h0, hc, hf]
          rw [hs, hc]
          exact Or.inr ⟨rfl, rfl, rfl, rfl, rfl, hfresh⟩


/-- C1: when marshaling the batch or `Channel.Send` fails, `Client.send`
leaves the client state — in particular the pending registry — exactly
as it was, and no ID of the batch is pending afterwards (the duplicate
pre-check had already established none was pending); conversely a
pending entry appears only when both marshaling and the channel send
succeeded, in which case the registry is the old one plus exactly the
batch's non-notification IDs. -/
theorem send_failure_no_orphans :
    ∀ (c : ClientState) (reqs : List JRequest) (me ce : Option String),
      (∀ msg,
        ((sendBatch c reqs me ce).2 = .error (.marshalFail msg) ∨
         (sendBatch c reqs me ce).2 = .error (.chanFail msg)) →
        (sendBatch c reqs me ce).1 = c ∧
        ∀ req ∈ reqs, ∀ i, req.ID = some i →
          i ∉ (sendBatch c reqs me ce).1.pending) ∧
      (∀ i, i ∈ (sendBatch c reqs me ce).1.pending →
        i ∈ c.pending ∨
        (me = none ∧ ce = none ∧
          ∃ ids, (sendBatch c reqs me ce).2 = .ok ids ∧
            (sendBatch c reqs me ce).1.pending = c.pending ++ ids)) := by
  intro c reqs me ce
  by_cases h0 : reqs.length = 0
  · have hs : sendBatch c reqs me ce = (c, .error .emptyBatch) := by
      simp only [sendBatch, if_pos h0]
    rw [hs]
    constructor
    · intro msg hmsg
      rcases hmsg with h | h <;> injection h with he <;>
        exact SendErr.noConfusion he
    · intro i hi
      exact Or.inl hi
  cases hc : c.cerr with
  | some e =>
    have hs : sendBatch c reqs me ce = (c, .error (.prior e)) := by
      simp only [sendBatch, if_neg h0, hc]
    rw [hs]
    constructor
    · intro msg hmsg
      rcases hmsg with h | h <;> injection h with he <;>
        exact SendErr.noConfusion he
    · intro i hi
      exact Or.inl hi
  | none =>
    cases hf : reqs.find? (fun r => r.ID.any (fun i => c.pending.contains i)) with
    | some r =>
      have hs : sendBatch c reqs me ce = (c, .error (.dupID (r.ID.getD 0))) := by
        simp only [sendBatch, if_neg h0, hc, hf]
      rw [hs]
      constructor
      · intro msg hmsg
        rcases hmsg with h | h <;> injection h with he <;>
          exact SendErr.noConfusion he
      · intro i hi
        exact Or.inl hi
    | none =>
      have hfresh : ∀ r ∈ reqs, ∀ i, r.ID = some i → i ∉ c.pending := by
        intro r hr i hid hmem
        have hall := List.find?_eq_none.1 hf r hr
        rw [hid] at hall
        simp only [Option.any_some] at hall
        exact hall (by simpa using hmem)
      cases me with
      | some msg0 =>
        have hs : sendBatch c reqs (some msg0) ce =
            (c, .error (.marshalFail msg0)) := by
          simp only [sendBatch, if_neg h0, hc, hf]
        rw [hs]
        constructor
        · intro msg _
          exact ⟨rfl, hfresh⟩
        · intro i hi
          exact Or.inl hi
      | none =>
        cases ce with
        | some msg0 =>
          have hs : sendBatch c reqs none (some msg0) =
              (c, .error (.chanFail msg0)) := by
            simp only [sendBatch, if_neg h0, hc, hf]
          rw [hs]
          constructor
          · intro msg _
            exact ⟨rfl, hfresh⟩
          · intro i hi
            exact Or.inl hi
        | none =>
          have hs : sendBatch c reqs none none =
              ({ c with pending := c.pending ++ reqs.filterMap (·.ID),
                        sent := c.sent ++ [reqs] },
               .ok (reqs.filterMap (·.ID))) := by
            simp only [sendBatch, if_neg h0, hc, hf]
          rw [hs]
          constructor
          · intro msg hmsg
            rcases hmsg with h | h <;> exact Except.noConfusion h
          · intro i hi
            simp only at hi
            rcases List.mem_append.1 hi with h | h
            · exact Or.inl h
            · exact Or.inr ⟨rfl, rfl, reqs.filterMap (·.ID), rfl, rfl⟩

/-- Witness for C1: a failing marshal leaves a fresh client untouched,
and after a successful send the single pending entry comes with the
send's success (registry = old registry plus the sent ID). -/
theorem send_failure_no_orphans_witness :
    (sendBatch newClient [{ V := "2.0", ID := some 1, M := "m", P := none }]
        (some "boom") none).1 = newClient ∧
    ((1 : Int) ∈ newClient.pending ∨
      ((none : Option String) = none ∧ (none : Option String) = none ∧
        ∃ ids,
          (sendBatch newClient
            [{ V := "2.0", ID := some 1, M := "m", P := none }] none none).2 =
            .ok ids ∧
          (sendBatch newClient
            [{ V := "2.0", ID := some 1, M := "m", P := none }]
            none none).1.pending = newClient.pending ++ ids)) := by
  constructor
  · exact ((send_failure_no_orphans newClient
      [{ V := "2.0", ID := some 1, M := "m", P := none }]
      (some "boom") none).1 "boom" (Or.inl (by rfl))).1
  · exact (send_failure_no_orphans newClient
      [{ V := "2.0", ID := some 1, M := "m", P := none }] none none).2 1
      (by decide)

end Jrpc2

namespace Jrpc2

/-- Within the signed 64-bit range the wrap is the identity. -/
theorem wrap64_id (n : Int) (h1 : -(2 ^ 63) ≤ n) (h2 : n < 2 ^ 63) :
    wrap64 n = n := by
  have e1 : (2 : Int) ^ 63 = 9223372036854775808 := by norm_num
  have e2 : (2 : Int) ^ 64 = 18446744073709551616 := by norm_num
  unfold wrap64
  rw [e1, e2]
  rw [e1] at h1 h2
  omega

/-- `Client.req` on valid params: the request carries the current
counter value as its ID and the counter is bumped. -/
theorem reqOp_ok (c : ClientState) (m : String) (p : Option Json)
    (bits : Option Json) (h : marshalParams p = .ok bits) :
    reqOp c m p = ({ c with nextID := wrap64 (c.nextID + 1) },
      .ok { V := Version, ID := some c.nextID, M := m, P := bits }) := by
  simp only [reqOp, h]

/-- `Client.req` on invalid params: the error is returned and the state
is untouched. -/
theorem reqOp_err (c : ClientState) (m : String) (p : Option Json)
    (e : Error) (h : marshalParams p = .error e) :
    reqOp c m p = (c, .error e) := by
  simp only [reqOp, h]

/-- `Client.note` on valid params: a request without an ID. -/
theorem noteOp_ok (m : String) (p : Option Json) (bits : Option Json)
    (h : marshalParams p = .ok bits) :
    noteOp m p = .ok { V := Version, ID := none, M := m, P := bits } := by
  simp only [noteOp, h]

/-- Appending freshly minted IDs to a registry of strictly older IDs
keeps it duplicate-free and keeps every entry below the new counter. -/
theorem inv_extend (pend : List Int) (nA nB : Int) (ids : List Int)
    (hA : 1 ≤ nA) (hAB : nA ≤ nB)
    (hnodupP : pend.Nodup) (hP : ∀ id ∈ pend, 1 ≤ id ∧ id < nA)
    (hnodupI : ids.Nodup) (hI : ∀ i ∈ ids, nA ≤ i ∧ i < nB) :
    (pend ++ ids).Nodup ∧ ∀ id ∈ pend ++ ids, 1 ≤ id ∧ id < nB := by
  constructor
  · rw [List.nodup_append]
    refine ⟨hnodupP, hnodupI, ?_⟩
    intro a haP haI
    have h1 := (hP a haP).2
    have h2 := (hI a haI).1
    linarith
  · intro id hid
    rcases List.mem_append.1 hid with h | h
    · obtain ⟨x, y⟩ := hP id h
      exact ⟨x, by linarith⟩
    · obtain ⟨x, y⟩ := hI id h
      exact ⟨by linarith, y⟩

/-- The request-construction loop of `Client.Batch` leaves the registry,
error and channel state untouched, only advances the counter (one step
per non-notification spec, staying in the 64-bit range under the stated
headroom), and on success produces requests whose IDs are exactly the
fresh counter values: pairwise distinct and in `[old counter, new
counter)`. -/
theorem buildBatch_ids :
    ∀ (specs : List Spec) (c : ClientState),
      1 ≤ c.nextID →
      c.nextID + ((specs.filter (fun s => ¬ s.notify)).length : Int) < 2 ^ 63 →
      (buildBatch c specs).1.pending = c.pending ∧
      (buildBatch c specs).1.cerr = c.cerr ∧
      (buildBatch c specs).1.chOpen = c.chOpen ∧
      (buildBatch c specs).1.sent = c.sent ∧
      c.nextID ≤ (buildBatch c specs).1.nextID ∧
      (buildBatch c specs).1.nextID < 2 ^ 63 ∧
      ∀ rs, (buildBatch c specs).2 = .ok rs →
        (rs.filterMap (·.ID)).Nodup ∧
        ∀ i ∈ rs.filterMap (·.ID),
          c.nextID ≤ i ∧ i < (buildBatch c specs).1.nextID := by
  intro specs
  induction specs with
  | nil =>
    intro c h1 h2
    rw [show buildBatch c [] = (c, Except.ok []) from rfl]
    simp only [List.filter_nil, List.length_nil, Nat.cast_zero, add_zero] at h2
    refine ⟨rfl, rfl, rfl, rfl, le_refl _, h2, ?_⟩
    intro rs hrs
    injection hrs with he
    subst he
    exact ⟨List.nodup_nil, by simp⟩
  | cons s rest ih =>
    intro c h1 h2
    by_cases hn : s.notify = true
    · have hfeq : (s :: rest).filter (fun s => ¬ s.notify) =
          rest.filter (fun s => ¬ s.notify) := by
        simp [List.filter, hn]
      rw [hfeq] at h2
      cases hnote : noteOp s.method s.params with
      | error e =>
        have hb : buildBatch c (s :: rest) = (c, .error e) := by
          simp only [buildBatch, hnote, if_pos hn]
        rw [hb]
        have hlen : (0 : Int) ≤ ((rest.filter (fun s => ¬ s.notify)).length : Int) :=
          Int.natCast_nonneg _
        refine ⟨rfl, rfl, rfl, rfl, le_refl _, by linarith, ?_⟩
        intro rs hrs
        exact Except.noConfusion hrs
      | ok r =>
        have hrid : r.ID = none := by
          unfold noteOp at hnote
          cases hmp : marshalParams s.params with
          | error e =>
            rw [hmp] at hnote
            exact Except.noConfusion hnote
          | ok bits =>
            rw [hmp] at hnote
            injection hnote with he
            rw [← he]
        obtain ⟨hpend, hcerr, hch, hsent, hle, hlt, hok⟩ := ih c h1 h2
        cases hbb : buildBatch c rest with
        | mk c2 res =>
          rw [hbb] at hpend hcerr hch hsent hle hlt hok
          cases res with
          | error e =>
            have hb : buildBatch c (s :: rest) = (c2, .error e) := by
              simp only [buildBatch, hnote, if_pos hn, hbb]
            rw [hb]
            exact ⟨hpend, hcerr, hch, hsent, hle, hlt,
              fun rs hrs => Except.noConfusion hrs⟩
          | ok rs0 =>
            have hb : buildBatch c (s :: rest) = (c2, .ok (r :: rs0)) := by
              simp only [buildBatch, hnote, if_pos hn, hbb]
            rw [hb]
            refine ⟨hpend, hcerr, hch, hsent, hle, hlt, ?_⟩
            intro rs hrs
            injection hrs with he
            subst he
            have hids : (r :: rs0).filterMap (·.ID) = rs0.filterMap (·.ID) := by
              simp [List.filterMap_cons, hrid]
            rw [hids]
            exact hok rs0 rfl
    · have hfeq : ((s :: rest).filter (fun s => ¬ s.notify)).length =
          (rest.filter (fun s => ¬ s.notify)).length + 1 := by
        simp [List.filter, hn]
      rw [hfeq] at h2
      push_cast at h2
      cases hmp : marshalParams s.params with
      | error e =>
        have hb : buildBatch c (s :: rest) = (c, .error e) := by
          simp only [buildBatch, if_neg hn, reqOp, hmp]
        rw [hb]
        have hlen : (0 : Int) ≤ ((rest.filter (fun s => ¬ s.notify)).length : Int) :=
          Int.natCast_nonneg _
        refine ⟨rfl, rfl, rfl, rfl, le_refl _, by linarith, ?_⟩
        intro rs hrs
        exact Except.noConfusion hrs
      | ok bits =>
        have hpow : (0 : Int) < 2 ^ 63 := by positivity
        have hlen : (0 : Int) ≤ ((rest.filter (fun s => ¬ s.notify)).length : Int) :=
          Int.natCast_nonneg _
        have hreq := reqOp_ok c s.method s.params bits hmp
        have hwrap : wrap64 (c.nextID + 1) = c.nextID + 1 :=
          wrap64_id _ (by linarith) (by linarith)
        obtain ⟨hpend, hcerr, hch, hsent, hle, hlt, hok⟩ :=
          ih { c with nextID := c.nextID + 1 } (by simp only; linarith)
            (by simp only; linarith)
        cases hbb : buildBatch { c with nextID := c.nextID + 1 } rest with
        | mk c2 res =>
          rw [hbb] at hpend hcerr hch hsent hle hlt hok
          simp only at hpend hcerr hch hsent hle hlt hok
          cases res with
          | error e =>
            have hb : buildBatch c (s :: rest) = (c2, .error e) := by
              simp only [buildBatch, if_neg hn, hreq, hwrap, hbb]
            rw [hb]
            exact ⟨hpend, hcerr, hch, hsent, by linarith, hlt,
              fun rs hrs => Except.noConfusion hrs⟩
          | ok rs0 =>
            have hb : buildBatch c (s :: rest) = (c2, .ok
                ({ V := Version, ID := some c.nextID, M := s.method,
                   P := bits } :: rs0)) := by
              simp only [buildBatch, if_neg hn, hreq, hwrap, hbb]
            rw [hb]
            dsimp only
            refine ⟨hpend, hcerr, hch, hsent, by linarith, hlt, ?_⟩
            intro rs hrs
            injection hrs with he
            subst he
            obtain ⟨hnodup0, hbound0⟩ := hok rs0 rfl
            simp only [List.filterMap_cons]
            constructor
            · rw [List.nodup_cons]
              refine ⟨?_, hnodup0⟩
              intro hmem
              have := (hbound0 _ hmem).1
              linarith
            · intro i hi
              rcases List.mem_cons.1 hi with h | h
              · subst h
                constructor
                · linarith
                · linarith
              · obtain ⟨x, y⟩ := hbound0 i h
                exact ⟨by linarith, y⟩

end Jrpc2

namespace Jrpc2

/-- The state after `Client.Call`'s send phase: unchanged on a params
failure, otherwise the post-state of sending the single freshly built
request from the bumped-counter state. -/
theorem CallStep_state (c : ClientState) (m : String) (p : Option Json)
    (me ce : Option String) :
    (CallStep c m p me ce).1 = c ∨
    ∃ bits, marshalParams p = .ok bits ∧
      (CallStep c m p me ce).1 =
        (sendBatch { c with nextID := wrap64 (c.nextID + 1) }
          [{ V := Version, ID := some c.nextID, M := m, P := bits }]
          me ce).1 := by
  cases hmp : marshalParams p with
  | error e =>
    exact Or.inl (by simp only [CallStep, reqOp_err c m p e hmp])
  | ok bits =>
    refine Or.inr ⟨bits, rfl, ?_⟩
    simp only [CallStep, reqOp_ok c m p bits hmp]
    cases hsb : sendBatch { c with nextID := wrap64 (c.nextID + 1) }
        [{ V := Version, ID := some c.nextID, M := m, P := bits }] me ce with
    | mk c2 res =>
      cases res <;> rfl

/-- The state after `Client.Notify`'s send phase: unchanged on a params
failure, otherwise the post-state of sending one request without an
ID. -/
theorem NotifyStep_state (c : ClientState) (m : String) (p : Option Json)
    (me ce : Option String) :
    (NotifyStep c m p me ce).1 = c ∨
    ∃ r : JRequest, r.ID = none ∧
      (NotifyStep c m p me ce).1 = (sendBatch c [r] me ce).1 := by
  cases hmp : marshalParams p with
  | error e =>
    exact Or.inl (by simp only [NotifyStep, noteOp, hmp])
  | ok bits =>
    refine Or.inr ⟨{ V := Version, ID := none, M := m, P := bits }, rfl, ?_⟩
    simp only [NotifyStep, noteOp_ok m p bits hmp]
    cases hsb : sendBatch c
        [{ V := Version, ID := none, M := m, P := bits }] me ce with
    | mk c2 res =>
      cases res <;> rfl

/-- C2: the outbound ID counter starts at 1 and a fresh client satisfies
the registry invariant; each constructed request carries the current
counter value as its ID (never 0, and colliding with no pending entry)
and bumps the counter by one; `Client.send` rejects, without touching
the state, any batch containing a request whose ID is already pending;
and every client operation preserves the invariant that the registry
holds at most one entry per ID, all of them IDs minted earlier — so an
ID is never reused while its entry is present. -/
theorem id_allocation_inv :
    newClient.nextID = 1 ∧ ClientInv newClient ∧
    (∀ (c : ClientState) (m : String) (p : Option Json)
        (c1 : ClientState) (r : JRequest),
      ClientInv c → reqOp c m p = (c1, .ok r) →
      r.ID = some c.nextID ∧ 1 ≤ c.nextID ∧ r.ID ≠ some 0 ∧
      c.nextID ∉ c.pending ∧
      (c.nextID + 1 < 2 ^ 63 → c1.nextID = c.nextID + 1)) ∧
    (∀ (c : ClientState) (reqs : List JRequest) (me ce : Option String)
        (req : JRequest) (i : Int),
      c.cerr = none → req ∈ reqs → req.ID = some i → i ∈ c.pending →
      ∃ j, (sendBatch c reqs me ce).2 = .error (.dupID j) ∧
        (sendBatch c reqs me ce).1 = c) ∧
    (∀ (c : ClientState) (ev : CEvent),
      ClientInv c → c.nextID + (evReqCount ev : Int) < 2 ^ 63 →
      ClientInv (step c ev)) := by
  have hpow : (0 : Int) < 2 ^ 63 := by positivity
  refine ⟨rfl, ?_, ?_, ?_, ?_⟩
  · exact ⟨le_refl 1, by norm_num [newClient], List.nodup_nil,
      fun id hid => absurd hid (List.not_mem_nil id)⟩
  · intro c m p c1 r hInv h
    obtain ⟨hI1, hI2, hI3, hI4⟩ := hInv
    cases hmp : marshalParams p with
    | error e =>
      rw [reqOp_err c m p e hmp] at h
      injection h with _ h2
      exact Except.noConfusion h2
    | ok bits =>
      rw [reqOp_ok c m p bits hmp] at h
      injection h with h1 h2
      injection h2 with h2
      subst h1
      subst h2
      refine ⟨rfl, hI1, ?_, ?_, ?_⟩
      · intro he
        injection he with he1
        omega
      · intro hmem
        have := (hI4 _ hmem).2
        linarith
      · intro hroom
        simp only
        exact wrap64_id _ (by linarith) hroom
  · intro c reqs me ce req i hc hreq hid hmem
    have h0 : ¬ reqs.length = 0 := by
      intro h
      rw [List.length_eq_zero] at h
      subst h
      exact absurd hreq (List.not_mem_nil req)
    cases hf : reqs.find? (fun r => r.ID.any (fun i => c.pending.contains i)) with
    | none =>
      have hall := List.find?_eq_none.1 hf req hreq
      rw [hid] at hall
      simp only [Option.any_some] at hall
      exact absurd (by simpa using hmem) hall
    | some r =>
      have hs : sendBatch c reqs me ce = (c, .error (.dupID (r.ID.getD 0))) := by
        simp only [sendBatch, if_neg h0, hc, hf]
      exact ⟨r.ID.getD 0, by rw [hs], by rw [hs]⟩
  · intro c ev hInv hroom
    obtain ⟨hI1, hI2, hI3, hI4⟩ := hInv
    cases ev with
    | callEv m p me ce =>
      simp only [evReqCount, Nat.cast_one] at hroom
      have hwrap : wrap64 (c.nextID + 1) = c.nextID + 1 :=
        wrap64_id _ (by linarith) (by linarith)
      show ClientInv (CallStep c m p me ce).1
      rcases CallStep_state c m p me ce with h | ⟨bits, hmp, h⟩
      · rw [h]
        exact ⟨hI1, hI2, hI3, hI4⟩
      · rw [hwrap] at h
        rw [h]
        rcases sendBatch_cases { c with nextID := c.nextID + 1 }
            [{ V := Version, ID := some c.nextID, M := m, P := bits }]
            me ce with ⟨h1, _⟩ | ⟨h1, _, _, _, _, _⟩
        · rw [h1]
          refine ⟨by simp only; linarith, by simp only; linarith, hI3, ?_⟩
          intro id hmem
          obtain ⟨x, y⟩ := hI4 id hmem
          exact ⟨x, by simp only; linarith⟩
        · rw [h1]
          have hfm : List.filterMap (·.ID)
              [({ V := Version, ID := some c.nextID, M := m,
                  P := bits } : JRequest)] = [c.nextID] := rfl
          have hext := inv_extend c.pending c.nextID (c.nextID + 1)
            [c.nextID] hI1 (by linarith) hI3 hI4
            (List.nodup_singleton _)
            (by intro i hi
                rcases List.mem_singleton.1 hi with rfl
                exact ⟨le_refl _, by linarith⟩)
          refine ⟨by simp only; linarith, by simp only; linarith, ?_, ?_⟩
          · simp only [hfm]
            exact hext.1
          · simp only [hfm]
            intro id hmem
            exact (hext.2 id hmem)
    | notifyEv m p me ce =>
      show ClientInv (NotifyStep c m p me ce).1
      rcases NotifyStep_state c m p me ce with h | ⟨r, hrid, h⟩
      · rw [h]
        exact ⟨hI1, hI2, hI3, hI4⟩
      · rw [h]
        rcases sendBatch_cases c [r] me ce with ⟨h1, _⟩ | ⟨h1, _, _, _, _, _⟩
        · rw [h1]
          exact ⟨hI1, hI2, hI3, hI4⟩
        · rw [h1]
          have hfm : List.filterMap (·.ID) [r] = [] := by
            simp [List.filterMap_cons, hrid]
          refine ⟨hI1, hI2, ?_, ?_⟩
          · simp only [hfm, List.append_nil]
            exact hI3
          · simp only [hfm, List.append_nil]
            exact hI4
    | batchEv specs me ce =>
      simp only [evReqCount] at hroom
      obtain ⟨hpend, hcerr, hch, hsent, hle, hlt, hok⟩ :=
        buildBatch_ids specs c hI1 hroom
      show ClientInv (BatchStep c specs me ce)
      cases hbb : buildBatch c specs with
      | mk c1 res =>
        rw [hbb] at hpend hcerr hch hsent hle hlt hok
        have hInv1 : ClientInv c1 := by
          refine ⟨by linarith, hlt, ?_, ?_⟩
          · rw [hpend]
            exact hI3
          · intro id hmem
            rw [hpend] at hmem
            obtain ⟨x, y⟩ := hI4 id hmem
            exact ⟨x, by linarith⟩
        cases res with
        | error e =>
          have hb : BatchStep c specs me ce = c1 := by
            simp only [BatchStep, hbb]
          rw [hb]
          exact hInv1
        | ok reqs =>
          have hb : BatchStep c specs me ce = (sendBatch c1 reqs me ce).1 := by
            simp only [BatchStep, hbb]
          rw [hb]
          rcases sendBatch_cases c1 reqs me ce with ⟨h1, _⟩ | ⟨h1, _, _, _, _, _⟩
          · rw [h1]
            exact hInv1
          · rw [h1]
            obtain ⟨hnodupI, hboundI⟩ := hok reqs rfl
            have hext := inv_extend c1.pending c.nextID c1.nextID
              (reqs.filterMap (·.ID)) hI1 hle
              (by rw [hpend]; exact hI3)
              (by rw [hpend]; exact hI4)
              hnodupI hboundI
            exact ⟨by linarith, hlt, hext.1, hext.2⟩
    | deliverEv id =>
      show ClientInv (deliverRemove c id)
      cases hcon : c.pending.contains id with
      | true =>
        have hd : deliverRemove c id = { c with pending := c.pending.erase id } := by
          simp only [deliverRemove, if_pos hcon]
        rw [hd]
        refine ⟨hI1, hI2, hI3.erase id, ?_⟩
        intro j hmem
        exact hI4 j (List.mem_of_mem_erase hmem)
      | false =>
        have hd : deliverRemove c id = c := by
          simp only [deliverRemove, hcon]
          rw [if_neg (by simp)]
        rw [hd]
        exact ⟨hI1, hI2, hI3, hI4⟩
    | cancelEv id =>
      show ClientInv (cancelRemove c id)
      cases hcon : c.pending.contains id with
      | true =>
        have hd : cancelRemove c id = { c with pending := c.pending.erase id } := by
          simp only [cancelRemove, if_pos hcon]
        rw [hd]
        refine ⟨hI1, hI2, hI3.erase id, ?_⟩
        intro j hmem
        exact hI4 j (List.mem_of_mem_erase hmem)
      | false =>
        have hd : cancelRemove c id = c := by
          simp only [cancelRemove, hcon]
          rw [if_neg (by simp)]
        rw [hd]
        exact ⟨hI1, hI2, hI3, hI4⟩
    | stopEv e =>
      show ClientInv (stopClient c e).1
      by_cases hch : c.chOpen = true
      · have hd : (stopClient c e).1 =
            { c with chOpen := false, cerr := some e } := by
          simp only [stopClient, if_pos hch]
        rw [hd]
        exact ⟨hI1, hI2, hI3, hI4⟩
      · have hd : (stopClient c e).1 = c := by
          simp only [stopClient, if_neg hch]
        rw [hd]
        exact ⟨hI1, hI2, hI3, hI4⟩

/-- Witness for C2: the invariant survives a concrete first call on a
fresh client, and a concrete duplicate-ID batch is rejected with the
state unchanged. -/
theorem id_allocation_inv_witness :
    ClientInv (step newClient (.callEv "m" none none none)) ∧
    (∃ j, (sendBatch
        { pending := [1], nextID := 2, cerr := none, chOpen := true,
          sent := [] }
        [{ V := "2.0", ID := some 1, M := "m", P := none }] none none).2 =
        .error (.dupID j) ∧
      (sendBatch
        { pending := [1], nextID := 2, cerr := none, chOpen := true,
          sent := [] }
        [{ V := "2.0", ID := some 1, M := "m", P := none }] none none).1 =
        { pending := [1], nextID := 2, cerr := none, chOpen := true,
          sent := [] }) := by
  constructor
  · exact id_allocation_inv.2.2.2.2 newClient (.callEv "m" none none none)
      id_allocation_inv.2.1 (by norm_num [newClient, evReqCount])
  · exact id_allocation_inv.2.2.2.1
      { pending := [1], nextID := 2, cerr := none, chOpen := true, sent := [] }
      [{ V := "2.0", ID := some 1, M := "m", P := none }] none none
      { V := "2.0", ID := some 1, M := "m", P := none } 1 rfl
      (List.mem_singleton.2 rfl) rfl (List.mem_singleton.2 rfl)

end Jrpc2

namespace Jrpc2

/-- Witness for C7 at concrete values: a one-element array decodes into
a one-destination wrapper (nil destination discards), and the empty
wrapper marshals as the empty array. -/
theorem args_wrapper_spec_witness :
    isOkE (argsUnmarshalJSON [none] (Json.arr [Json.num 5])) = true ∧
    argsMarshalJSON [] = render (Json.arr []) := by
  constructor
  · refine (args_wrapper_spec [none] (Json.arr [Json.num 5])).1.mpr
      (Or.inl ⟨[Json.num 5], rfl, rfl, ?_⟩)
    intro pr hpr
    rcases List.mem_singleton.1 hpr with rfl
    trivial
  · exact (args_wrapper_spec [] Json.null).2.1

/-- Witness for C8 at concrete values: an object whose only member is
mapped by the wrapper decodes when the destination accepts the value. -/
theorem obj_wrapper_spec_witness :
    isOkE (objUnmarshalJSON [("a", fun j => j.isNull)]
      (Json.obj [("a", Json.null)])) = true := by
  refine (obj_wrapper_spec [("a", fun j => j.isNull)]
      (Json.obj [("a", Json.null)])).1.mpr (Or.inl ⟨[("a", Json.null)], rfl, ?_⟩)
  intro k v hmem dec hdec
  have hmem2 : (k, v) = ("a", Json.null) := by
    simpa [toRawMap, setAssoc] using hmem
  injection hmem2 with hk hv
  subst hk
  subst hv
  simp [List.lookup] at hdec
  subst hdec
  rfl

end Jrpc2
